import Mathlib

/-!
Verification development for the BazaarHelper recognition front-end
(`src/src/App.tsx`, `src/src/hooks/useDraggable.ts`).

The TypeScript handlers are shallowly embedded as pure Lean functions:
React state updates become explicit record updates, `invoke` calls to the
Tauri backend become parameters (`Except String _` models a promise that
may reject), and the number of backend invocations performed by a handler
is returned alongside the final state.  JavaScript numbers that the code
only ever uses as integers (pixel coordinates, slot positions, pin
counters) are modelled as `Int`/`Nat`; confidences are modelled as `ℚ`.

JavaScript's `Array.prototype.sort` is stable (ES2019) and the comparators
used by the app are consistent (they are pullbacks of total preorders), so
a sort call is embedded as the stable insertion sort `stableSort` below.
-/

namespace BazaarHelper

/-! ### A stable sort, embedding JS `Array.prototype.sort`

`le a b` means `comparator(a,b) <= 0`.  `stableSort` inserts earlier
elements in front of equivalent later ones, which is exactly the stability
guarantee of the JS engine sort. -/

def insertSorted (le : α → α → Bool) (a : α) : List α → List α
  | [] => [a]
  | b :: l => if le a b then a :: b :: l else b :: insertSorted le a l

def stableSort (le : α → α → Bool) : List α → List α
  | [] => []
  | a :: l => insertSorted le a (stableSort le l)

/-! ### Key-based deduplication

Embeds the `seen`-`Set` filter of `getSortedItems` (App.tsx 684–702): walk
the list, keep an element only if its key has not been seen yet. -/

def dedupByKey (key : α → String) : List α → List String → List α
  | [], _ => []
  | a :: l, seen =>
    if key a ∈ seen then dedupByKey key l seen
    else a :: dedupByKey key l (key a :: seen)

/-! ### Data model (App.tsx interfaces, restricted to the fields the
verified handlers read)

`ItemData` keeps `uuid`, `instance_id` and `name_cn`; the image/skills
fields are not consulted by any verified operation.  `instance_id` is an
optional field in TS; JS truthiness also treats the empty string as
absent, which `jsStrOr` reproduces. -/

structure ItemData where
  uuid : String
  instance_id : Option String
  name_cn : String
  deriving DecidableEq, Repr

/-- One element of the `recognize_card_at_mouse` result array (only `id`
is read, App.tsx 536). -/
structure CardRes where
  id : String
  deriving DecidableEq, Repr

/-- One element of the `recognize_monsters_from_screenshot` result array
(App.tsx 1575–1576): a slot `position` and a monster `name`.  The backend
serialises an integer position; arbitrary `Int` values are allowed here so
that out-of-range values can be reasoned about. -/
structure MonsterRes where
  position : Int
  name : String
  deriving DecidableEq, Repr

/-- JS `a || b` on an optional string: `undefined` and `""` are falsy. -/
def jsStrOr (a : Option String) (b : String) : String :=
  match a with
  | some s => if s = "" then b else s
  | none => b

/-- `item.instance_id || item.uuid` (App.tsx 673–674, 694). -/
def jsKey (item : ItemData) : String :=
  jsStrOr item.instance_id item.uuid

/-! ### Card recognition handler (`handleRecognizeCard`, App.tsx 526–566)

The backend promise `recognize_card_at_mouse` is a parameter of type
`Except String (Option (List CardRes))`: `.error` models a rejected
promise (the `catch` branch), `.ok none` models a `null` result.
`get_item_info` is likewise a parameter; a rejection anywhere inside the
`for` loop aborts into the `catch` branch, which `fetchInfos` models by
threading `Except`.  Image resolution (`getImg`) and the `setTimeout`
calls that later clear the status/error messages are elided: they touch
no state read by the verified claims. -/

structure CardState where
  isRecognizingCard : Bool
  recognizedCards : List ItemData
  expandedItems : List String
  statusMsg : Option String
  errorMessage : Option String
  deriving DecidableEq, Repr

/-- Final state of a `handleRecognizeCard` run plus the number of
`recognize_card_at_mouse` backend invocations it performed. -/
structure CardRun where
  state : CardState
  backendCalls : Nat
  deriving DecidableEq, Repr

/-- The `for (const res of results)` loop body (App.tsx 535–541): fetch
`get_item_info` per result, keep the non-null ones in order. -/
def fetchInfos (getInfo : CardRes → Except String (Option ItemData)) :
    List CardRes → Except String (List ItemData)
  | [] => .ok []
  | r :: rest =>
    match getInfo r with
    | .error e => .error e
    | .ok info =>
      match fetchInfos getInfo rest with
      | .error e => .error e
      | .ok infos =>
        .ok (match info with
             | some i => i :: infos
             | none => infos)

/-- `Set.add` over the uuids of the recognised items (App.tsx 546–550). -/
def addUuids (base : List String) (infos : List ItemData) : List String :=
  infos.foldl (fun acc i => if i.uuid ∈ acc then acc else acc ++ [i.uuid]) base

def handleRecognizeCard (s : CardState)
    (recognize : Except String (Option (List CardRes)))
    (getInfo : CardRes → Except String (Option ItemData)) : CardRun :=
  if s.isRecognizingCard then ⟨s, 0⟩   -- App.tsx 527: `if (isRecognizingCard) return;`
  else
    -- App.tsx 529–530
    let s1 := { s with isRecognizingCard := true, errorMessage := none }
    let s2 :=
      match recognize with
      | .error e =>   -- App.tsx 559–561 (catch)
        { s1 with errorMessage := some ("卡牌识别执行出错: " ++ e) }
      | .ok results =>
        match results with
        | some rs =>
          if rs.length > 0 then   -- App.tsx 533: `results && results.length > 0`
            match fetchInfos getInfo rs with
            | .error e =>
              { s1 with errorMessage := some ("卡牌识别执行出错: " ++ e) }
            | .ok fullInfos =>
              if fullInfos.length > 0 then   -- App.tsx 543
                { s1 with recognizedCards := fullInfos,
                          expandedItems := addUuids s1.expandedItems fullInfos,
                          statusMsg := some ("识别成功: 找到 " ++
                            toString fullInfos.length ++ " 个匹配项") }
              else   -- App.tsx 553–555
                { s1 with errorMessage := some "识别到了卡牌，但没能在数据库中找到对应信息" }
          else
            { s1 with errorMessage := some "未能识别到鼠标下的卡牌。请确保鼠标指向卡牌中心。" }
        | none =>   -- App.tsx 556–558
          { s1 with errorMessage := some "未能识别到鼠标下的卡牌。请确保鼠标指向卡牌中心。" }
    -- App.tsx 562–564 (finally)
    ⟨{ s2 with isRecognizingCard := false }, 1⟩

/-! ### Monster recognition handler (`handleAutoRecognition`, App.tsx
1567–1626)

The 3-slot `names` array (App.tsx 1574–1577) is a `List String` of length
3, written through `List.set` exactly where the source writes
`names[r.position - 1]` under the guard `r.position >= 1 && r.position <= 3`.
The day-tab auto-switch block (App.tsx 1592–1614) only touches
`selectedDay`/`currentDay`, which no verified claim reads, and is elided. -/

structure AutoState where
  isRecognizing : Bool
  identifiedNames : List String
  expandedMonsters : List String
  deriving DecidableEq, Repr

structure AutoRun where
  state : AutoState
  backendCalls : Nat
  deriving DecidableEq, Repr

/-- One iteration of the `results.forEach` loop (App.tsx 1575–1577):
`if (r.position >= 1 && r.position <= 3) names[r.position - 1] = r.name;` -/
def namesStep (names : List String) (r : MonsterRes) : List String :=
  if 1 ≤ r.position ∧ r.position ≤ 3
  then names.set (r.position - 1).toNat r.name
  else names

/-- The `names` array after the `results.forEach` loop (App.tsx 1574–1577). -/
def recogNames (results : List MonsterRes) : List String :=
  results.foldl namesStep ["", "", ""]

/-- `names.filter(n => n !== "")` (App.tsx 1578). -/
def validNames (results : List MonsterRes) : List String :=
  (recogNames results).filter (fun n => n ≠ "")

def handleAutoRecognition (s : AutoState) (monsterNames : List String)
    (backend : Except String (List MonsterRes)) : AutoRun :=
  if s.isRecognizing then ⟨s, 0⟩   -- App.tsx 1568: `if (isRecognizing) return;`
  else
    let s1 := { s with isRecognizing := true }   -- App.tsx 1569
    let s2 :=
      match backend with
      | .error _ => s1   -- App.tsx 1618–1622: catch only logs
      | .ok results =>
        if results.length > 0 then
          let vn := validNames results
          { s1 with identifiedNames := vn,   -- App.tsx 1580
                    -- App.tsx 1583–1590: expand recognised monsters present in the DB
                    expandedMonsters := vn.foldl
                      (fun acc n =>
                        if n ∈ monsterNames ∧ n ∉ acc then acc ++ [n] else acc)
                      s1.expandedMonsters }
        else s1   -- App.tsx 1615–1617
    ⟨{ s2 with isRecognizing := false }, 1⟩   -- App.tsx 1623–1625 (finally)

/-! ### Slot-array lemmas -/

/-- Specification-side observer: the name of the *last* result in the list
carrying position `k`, if any.  Used to characterise the
later-overwrites-earlier behaviour of the `forEach` write loop. -/
def lastPosName (k : Int) : List MonsterRes → Option String
  | [] => none
  | r :: rest =>
    match lastPosName k rest with
    | some n => some n
    | none => if r.position = k then some r.name else none

/-- Specification-side view of the recognition output, for comparison with
the spec's `{entity_id, slot}` format: the non-empty slots of the `names`
array, tagged with their 1-based slot index, in slot order. -/
def slotTagged (results : List MonsterRes) : List (Nat × String) :=
  (List.range 3).filterMap (fun i =>
    let n := (recogNames results).getD i ""
    if n = "" then none else some (i + 1, n))

/-- The content of slot `k` (1-based) after the write loop. -/
def slotName (results : List MonsterRes) (k : Int) : String :=
  (lastPosName k results).getD ""

/-- Explicit form of the slot-tagged output for slot contents `s1 s2 s3`. -/
def tagged3 (s1 s2 s3 : String) : List (Nat × String) :=
  (if s1 = "" then [] else [(1, s1)]) ++
  (if s2 = "" then [] else [(2, s2)]) ++
  (if s3 = "" then [] else [(3, s3)])

/-! ### Monster tab day filter (`updateFilteredMonsters`, App.tsx 1285–1320)

`allMonsters` is a `Record<string, MonsterData>`; its `Object.values` are
modelled as a list.  `processMonsterImages` only fills image fields and is
elided.  JS `indexOf` returning `-1` is mapped to `999` by the source
itself (App.tsx 1312–1313), which `posOf` reproduces. -/

structure MonsterData where
  name_zh : String
  available : String
  deriving DecidableEq, Repr

/-- Sort rank of a monster w.r.t. the recognition order (App.tsx 1309–1313). -/
def posOf (identifiedNames : List String) (m : MonsterData) : Nat :=
  match identifiedNames.indexOf? m.name_zh with
  | some i => i
  | none => 999

def updateFilteredMonsters (allMonsters : List MonsterData)
    (identifiedNames : List String) (day : String) : List MonsterData :=
  -- App.tsx 1287–1290: empty day defaults to "Day 1" when the DB is non-empty
  let targetDay := if day = "" ∧ allMonsters.length > 0 then "Day 1" else day
  -- App.tsx 1292–1294
  let monstersOnDay := allMonsters.filter
    (fun m => m.name_zh.length > 0 ∧ m.available = targetDay)
  -- App.tsx 1308–1316 (stable JS sort by recognition order)
  stableSort (fun a b =>
    decide (posOf identifiedNames a ≤ posOf identifiedNames b)) monstersOnDay

/-! ### Day filtering in the backend matcher

The Rust command `recognize_monsters_from_screenshot` is not part of the
frontend sources; the day-restriction step it performs is modelled from
the spec below. -/

/-- Modelled from the spec: a `TemplateEntry` of the Template Bank (§3);
only the identity and the availability metadata used by day filtering are
kept. -/
structure TemplateEntry where
  entity_id : String
  availability : String
  deriving DecidableEq, Repr

/-- Modelled from the spec: `entries_for_day(day)` (§4.1) — "returns the
filtered, read-only subset whose availability metadata matches `day`". -/
def entriesForDay (entries : List TemplateEntry) (day : String) :
    List TemplateEntry :=
  entries.filter (fun e => e.availability = day)

/-- Whether candidate `e` beats the current `best`: strictly higher score
wins, exact ties go to the lexicographically smaller catalog id (§4.4). -/
def beats (f : TemplateEntry → ℚ) (e : TemplateEntry) :
    Option TemplateEntry → Bool
  | none => true
  | some b =>
    decide (f b < f e) || (decide (f e = f b) && decide (e.entity_id < b.entity_id))

def bestStep (f : TemplateEntry → ℚ) (th : ℚ) (best : Option TemplateEntry)
    (e : TemplateEntry) : Option TemplateEntry :=
  if decide (th ≤ f e) && beats f e best then some e else best

/-- Best-scoring entry at or above the acceptance threshold, ties broken
towards the lexicographically smaller catalog id (§4.4). -/
def bestAbove (l : List TemplateEntry) (f : TemplateEntry → ℚ) (th : ℚ) :
    Option TemplateEntry :=
  l.foldl (bestStep f th) none

/-- Modelled from the spec: `recognize_entities(day)` slot assignment
(§4.4/§6) — the missing Rust matcher.  Eligible templates are restricted
to `entries_for_day(day)` *before scoring*; each of the three slots keeps
its best-scoring eligible candidate above threshold, or stays empty. -/
def recognizeEntitiesSlots (entries : List TemplateEntry) (day : String)
    (score : TemplateEntry → Nat → ℚ) (th : ℚ) :
    List (TemplateEntry × Nat) :=
  [1, 2, 3].filterMap (fun slot =>
    (bestAbove (entriesForDay entries day) (fun e => score e slot) th).map
      (fun e => (e, slot)))

/-! ### Loading progress (App.tsx 150, 869–899)

The frontend polls `get_template_loading_progress` every 500 ms and stops
polling once `is_complete` is observed (App.tsx 879–882).  The loader
itself is Rust code outside the frontend sources and is modelled from the
spec.  An observation run is the initial React state (App.tsx 150)
followed by the loader states sampled at nondecreasing points in time. -/

structure LoadingProgress where
  loaded : Nat
  total : Nat
  is_complete : Bool
  current_name : String
  deriving DecidableEq, Repr

/-- The initial `templateLoading` React state (App.tsx 150):
`{ loaded: 0, total: 0, is_complete: false, current_name: "" }`. -/
def templateLoadingInit : LoadingProgress :=
  { loaded := 0, total := 0, is_complete := false, current_name := "" }

/-- Modelled from the spec: the state of the Template Bank loader (§4.1,
§4.2) after `k` of the `n` declared catalog entries have been processed
(skipped entries still count, so `loaded` eventually reaches `total`);
`is_complete == (loaded == total)`. -/
def loaderState (n k : Nat) : LoadingProgress :=
  { loaded := k, total := n, is_complete := k == n, current_name := "" }

/-- The sequence of `templateLoading` values observed by the app: the
initial state, then the loader states at the sampled instants. -/
def observedStates (n : Nat) (samples : List Nat) : List LoadingProgress :=
  templateLoadingInit :: samples.map (loaderState n)

/-! ### Candidate resolver and rank badges

The ranked ordering of card candidates is produced by the Rust side of
`recognize_card_at_mouse`; it is modelled from the spec (§4.6).  The
UI-facing badge is computed in the render loop of App.tsx. -/

inductive Role where
  | Primary
  | Secondary
  deriving DecidableEq, Repr

structure MatchCandidate where
  entity_id : String
  confidence : ℚ
  deriving DecidableEq, Repr

/-- Modelled from the spec: the Candidate Resolver for card/item mode
(§4.6) — "orders strictly by descending confidence, labels index 0 as
`Primary` and subsequent indices as `Secondary`; empty input yields an
empty `RankedResult` (not an error)". -/
def resolveCandidates (cands : List MatchCandidate) :
    List (MatchCandidate × Role) :=
  match stableSort (fun a b => decide (b.confidence ≤ a.confidence)) cands with
  | [] => []
  | c :: rest => (c, Role.Primary) :: rest.map (fun x => (x, Role.Secondary))

/-- `const isTopMatch = idx === 0;` (App.tsx 3298). -/
def isTopMatch (idx : Nat) : Bool := idx == 0

/-- The badge rendered next to a recognised card (App.tsx 3322–3328):
`{isTopMatch ? "MATCH" : "MAYBE"}`.  The `items` parameter is the
displayed list the render loop maps over; the label computation reads only
the running index, never the item itself. -/
def displayedBadge (_items : List ItemData) (idx : Nat) : String :=
  if isTopMatch idx then "MATCH" else "MAYBE"

/-! ### Pinned-item ordering (`getSortedItems`, App.tsx 668–703)

`pinnedItems` is a `Map<string, number>` from item key to pin counter,
modelled as an association list.  `pinnedItems.get(aId) || pinnedItems.get(a.uuid)`
falls through on `undefined` *and* on a stored `0` (JS truthiness), which
`jsNumOr` reproduces; the app only ever stores counters `>= 1`
(App.tsx 496–503), but the embedding does not assume that. -/

/-- JS `a || b` on optional numbers: `undefined` and `0` are falsy. -/
def jsNumOr (a b : Option Nat) : Option Nat :=
  match a with
  | some v => if v = 0 then b else some v
  | none => b

/-- `Map.get` on the pin map. -/
def pinsGet (pins : List (String × Nat)) (k : String) : Option Nat :=
  (pins.find? (fun p => p.1 == k)).map (fun p => p.2)

/-- `pinnedItems.get(aId) || pinnedItems.get(a.uuid)` (App.tsx 675–676). -/
def pinOf (pins : List (String × Nat)) (item : ItemData) : Option Nat :=
  jsNumOr (pinsGet pins (jsKey item)) (pinsGet pins item.uuid)

/-- JS truthiness of the pin lookup result. -/
def jsTruthy (o : Option Nat) : Bool :=
  match o with
  | some v => v != 0
  | none => false

def isPinned (pins : List (String × Nat)) (item : ItemData) : Bool :=
  jsTruthy (pinOf pins item)

def pinVal (pins : List (String × Nat)) (item : ItemData) : Nat :=
  (pinOf pins item).getD 0

/-- The comparator passed to `sort` (App.tsx 671–682), as the value of
`comparator(a,b)`. -/
def cmpPin (pins : List (String × Nat)) (a b : ItemData) : Int :=
  if isPinned pins a ∧ isPinned pins b then
    (pinVal pins b : Int) - (pinVal pins a : Int)   -- both pinned: later pin first
  else if isPinned pins a then -1
  else if isPinned pins b then 1
  else 0

/-- `comparator(a,b) <= 0`, the order realised by the stable JS sort. -/
def lePin (pins : List (String × Nat)) (a b : ItemData) : Bool :=
  decide (cmpPin pins a b ≤ 0)

def getSortedItems (pins : List (String × Nat)) (items : List ItemData) :
    List ItemData :=
  dedupByKey jsKey (stableSort (lePin pins) items) []

/-! ### `useDraggable` (src/hooks/useDraggable.ts)

`localStorage` is an association list (`setItem` prepends, `getItem` is
the first match); `JSON.parse` is a parameter `parse` — the hook only
observes whether it throws (`none`) or yields a value.  Pixel coordinates
are `Int`.  `JSON.stringify({x,y})` is the concrete encoder below. -/

structure Pos where
  x : Int
  y : Int
  deriving DecidableEq, Repr

def encodePos (p : Pos) : String :=
  "\x7b\"x\":" ++ toString p.x ++ ",\"y\":" ++ toString p.y ++ "\x7d"

def getItem (store : List (String × String)) (k : String) : Option String :=
  (store.find? (fun e => e.1 == k)).map (fun e => e.2)

def setItem (store : List (String × String)) (k v : String) :
    List (String × String) :=
  (k, v) :: store

/-- `getSavedPosition` (useDraggable.ts 5–16): missing key or a value on
which `JSON.parse` throws falls back to `initialPos`. -/
def getSavedPosition (parse : String → Option Pos)
    (store : List (String × String)) (storageKey : Option String)
    (initialPos : Pos) : Pos :=
  match storageKey with
  | none => initialPos
  | some k =>
    match getItem store k with
    | none => initialPos
    | some saved =>
      match parse saved with
      | none => initialPos   -- catch branch, useDraggable.ts 11–13
      | some p => p

structure MouseEvt where
  clientX : Int
  clientY : Int
  button : Nat
  deriving DecidableEq, Repr

inductive DragEvent where
  | down (e : MouseEvt)
  | move (e : MouseEvt)
  | up (e : MouseEvt)
  deriving DecidableEq, Repr

structure DragState where
  position : Pos
  isDragging : Bool
  offset : Pos
  store : List (String × String)
  deriving DecidableEq, Repr

/-- One DOM event step of the hook (useDraggable.ts 22–65).  The `no-drag`
target check of `handleMouseDown` is elided (it only further restricts
when a drag starts). -/
def stepDrag (storageKey : Option String) (s : DragState) :
    DragEvent → DragState
  | .down e =>
    if e.button ≠ 0 then s   -- useDraggable.ts 24
    else { s with isDragging := true,
                  offset := ⟨e.clientX - s.position.x, e.clientY - s.position.y⟩ }
  | .move e =>   -- useDraggable.ts 43–50: setPosition only, no persistence
    if s.isDragging then
      { s with position := ⟨e.clientX - s.offset.x, e.clientY - s.offset.y⟩ }
    else s
  | .up e =>   -- useDraggable.ts 52–65
    if s.isDragging then
      let finalPos : Pos := ⟨e.clientX - s.offset.x, e.clientY - s.offset.y⟩
      { s with position := finalPos,
               isDragging := false,
               store := match storageKey with
                        | some k => setItem s.store k (encodePos finalPos)
                        | none => s.store }
    else s


/-! ## Supporting lemmas -/

theorem mem_insertSorted {le : α → α → Bool} {a b : α} {l : List α} :
    b ∈ insertSorted le a l ↔ b = a ∨ b ∈ l := by
  induction l with
  | nil => simp [insertSorted]
  | cons c l ih =>
    by_cases h : le a c = true
    · simp [insertSorted, h]
    · simp only [insertSorted, h]
      simp [ih]
      tauto

theorem mem_stableSort {le : α → α → Bool} {a : α} {l : List α} :
    a ∈ stableSort le l ↔ a ∈ l := by
  induction l with
  | nil => simp [stableSort]
  | cons b l ih => simp [stableSort, mem_insertSorted, ih]

theorem perm_insertSorted (le : α → α → Bool) (a : α) (l : List α) :
    List.Perm (insertSorted le a l) (a :: l) := by
  induction l with
  | nil => simp [insertSorted]
  | cons b l ih =>
    by_cases h : le a b = true
    · simp [insertSorted, h]
    · simp only [insertSorted, h, if_false]
      exact List.Perm.trans (List.Perm.cons b ih) (List.Perm.swap a b l)

theorem perm_stableSort (le : α → α → Bool) (l : List α) :
    List.Perm (stableSort le l) l := by
  induction l with
  | nil => simp [stableSort]
  | cons a l ih =>
    exact List.Perm.trans (perm_insertSorted le a _) (List.Perm.cons a ih)

theorem pairwise_insertSorted {le : α → α → Bool}
    (htot : ∀ a b, le a b = true ∨ le b a = true)
    (htrans : ∀ a b c, le a b = true → le b c = true → le a c = true)
    {a : α} {l : List α} (hl : l.Pairwise (fun x y => le x y = true)) :
    (insertSorted le a l).Pairwise (fun x y => le x y = true) := by
  induction l with
  | nil => simp [insertSorted]
  | cons b l ih =>
    rcases List.pairwise_cons.mp hl with ⟨hb, hl'⟩
    by_cases h : le a b = true
    · simp only [insertSorted, h, if_true]
      refine List.pairwise_cons.mpr ⟨?_, hl⟩
      intro c hc
      rcases List.mem_cons.mp hc with hc | hc
      · exact hc ▸ h
      · exact htrans a b c h (hb c hc)
    · simp only [insertSorted, h, if_false]
      refine List.pairwise_cons.mpr ⟨?_, ih hl'⟩
      intro c hc
      rcases mem_insertSorted.mp hc with hc | hc
      · rw [hc]
        rcases htot a b with h' | h'
        · exact absurd h' h
        · exact h'
      · exact hb c hc

theorem pairwise_stableSort {le : α → α → Bool}
    (htot : ∀ a b, le a b = true ∨ le b a = true)
    (htrans : ∀ a b c, le a b = true → le b c = true → le a c = true)
    (l : List α) :
    (stableSort le l).Pairwise (fun x y => le x y = true) := by
  induction l with
  | nil => simp [stableSort]
  | cons a l ih => exact pairwise_insertSorted htot htrans ih

theorem filter_insertSorted_neg {le : α → α → Bool} {p : α → Bool} {a : α}
    (ha : p a = false) (l : List α) :
    (insertSorted le a l).filter p = l.filter p := by
  induction l with
  | nil => simp [insertSorted, ha]
  | cons b l ih =>
    by_cases h : le a b = true
    · simp [insertSorted, h, List.filter, ha]
    · simp only [insertSorted, h, if_false]
      by_cases hb : p b = true
      · simp [List.filter, hb, ih]
      · simp only [Bool.not_eq_true] at hb
        simp [List.filter, hb, ih]

theorem filter_insertSorted_pos {le : α → α → Bool} {p : α → Bool} {a : α}
    (ha : p a = true) (hpp : ∀ b, p b = true → le a b = true) (l : List α) :
    (insertSorted le a l).filter p = a :: l.filter p := by
  induction l with
  | nil => simp [insertSorted, ha]
  | cons b l ih =>
    by_cases h : le a b = true
    · simp [insertSorted, h, List.filter, ha]
    · have hb : p b = false := by
        cases hpb : p b
        · rfl
        · exact absurd (hpp b hpb) h
      simp only [insertSorted, h, if_false]
      simp [List.filter, hb, ih]

theorem pairwise_stableSort_of_sublist {le : α → α → Bool} {l m : List α}
    (htot : ∀ a b, le a b = true ∨ le b a = true)
    (htrans : ∀ a b c, le a b = true → le b c = true → le a c = true)
    (h : List.Sublist m (stableSort le l)) :
    m.Pairwise (fun x y => le x y = true) :=
  (pairwise_stableSort htot htrans l).sublist h

theorem filter_stableSort {le : α → α → Bool} {p : α → Bool}
    (hpp : ∀ a b, p a = true → p b = true → le a b = true) (l : List α) :
    (stableSort le l).filter p = l.filter p := by
  induction l with
  | nil => simp [stableSort]
  | cons a l ih =>
    cases ha : p a
    · rw [stableSort, filter_insertSorted_neg ha, ih]
      simp [List.filter, ha]
    · rw [stableSort, filter_insertSorted_pos ha (fun b hb => hpp a b ha hb), ih]
      simp [List.filter, ha]

theorem dedupByKey_sublist (key : α → String) (l : List α) (seen : List String) :
    List.Sublist (dedupByKey key l seen) l := by
  induction l generalizing seen with
  | nil => simp [dedupByKey]
  | cons a l ih =>
    by_cases h : key a ∈ seen
    · simp only [dedupByKey, if_pos h]
      exact List.Sublist.trans (ih seen) (List.sublist_cons_self a l)
    · simp only [dedupByKey, if_neg h]
      exact List.Sublist.cons₂ a (ih (key a :: seen))

theorem mem_dedupByKey_not_seen {key : α → String} {l : List α} {seen : List String}
    {x : α} (hx : x ∈ dedupByKey key l seen) : key x ∉ seen := by
  induction l generalizing seen with
  | nil => simp [dedupByKey] at hx
  | cons a l ih =>
    by_cases h : key a ∈ seen
    · rw [dedupByKey, if_pos h] at hx
      exact ih hx
    · rw [dedupByKey, if_neg h] at hx
      rcases List.mem_cons.mp hx with rfl | hx
      · exact h
      · intro hmem
        exact ih hx (List.mem_cons_of_mem _ hmem)

theorem nodup_keys_dedupByKey (key : α → String) (l : List α) (seen : List String) :
    ((dedupByKey key l seen).map key).Nodup := by
  induction l generalizing seen with
  | nil => simp [dedupByKey]
  | cons a l ih =>
    by_cases h : key a ∈ seen
    · rw [dedupByKey, if_pos h]
      exact ih seen
    · rw [dedupByKey, if_neg h]
      rw [List.map_cons, List.nodup_cons]
      constructor
      · intro hmem
        rcases List.mem_map.mp hmem with ⟨x, hx, hkx⟩
        exact mem_dedupByKey_not_seen hx (by rw [hkx]; exact List.mem_cons_self _ _)
      · exact ih (key a :: seen)

theorem filter_dedupByKey_seen {key : α → String} {l : List α} {seen : List String}
    {k : String} (hk : k ∈ seen) :
    (dedupByKey key l seen).filter (fun x => key x == k) = [] := by
  rw [List.filter_eq_nil_iff]
  intro x hx hkey
  rw [beq_iff_eq] at hkey
  exact mem_dedupByKey_not_seen hx (hkey ▸ hk)

theorem filter_dedupByKey_fresh {key : α → String} (l : List α) (seen : List String)
    (k : String) (hk : k ∉ seen) :
    (dedupByKey key l seen).filter (fun x => key x == k) =
      (l.filter (fun x => key x == k)).take 1 := by
  induction l generalizing seen with
  | nil => simp [dedupByKey]
  | cons a l ih =>
    by_cases h : key a ∈ seen
    · have hak : (key a == k) = false := by
        rw [beq_eq_false_iff_ne]
        intro he
        exact hk (he ▸ h)
      rw [dedupByKey, if_pos h, List.filter_cons, hak]
      simp only [Bool.false_eq_true, if_false]
      exact ih seen hk
    · rw [dedupByKey, if_neg h]
      by_cases hak : key a = k
      · have hbeq : (key a == k) = true := beq_iff_eq.mpr hak
        rw [List.filter_cons, hbeq, List.filter_cons, hbeq]
        simp only [if_true]
        rw [filter_dedupByKey_seen (hak ▸ List.mem_cons_self (key a) seen)]
        simp
      · have hbeq : (key a == k) = false := beq_eq_false_iff_ne.mpr hak
        rw [List.filter_cons, hbeq, List.filter_cons, hbeq]
        simp only [Bool.false_eq_true, if_false]
        exact ih (key a :: seen) (by
          intro hmem
          rcases List.mem_cons.mp hmem with he | hmem
          · exact hak he.symm
          · exact hk hmem)

theorem length_foldl_namesStep (results : List MonsterRes) (init : List String) :
    (results.foldl namesStep init).length = init.length := by
  induction results generalizing init with
  | nil => rfl
  | cons r rest ih =>
    rw [List.foldl_cons, ih]
    unfold namesStep
    split
    · exact List.length_set _ _ _
    · rfl

theorem length_recogNames (results : List MonsterRes) :
    (recogNames results).length = 3 :=
  length_foldl_namesStep results _

theorem getD_set3 (a b c n : String) (i j : Nat) (hi : i < 3) (hj : j < 3) :
    (([a, b, c].set i n).getD j "") = if i = j then n else [a, b, c].getD j "" := by
  interval_cases i <;> interval_cases j <;> simp [List.set]

theorem exists_three {l : List String} (h : l.length = 3) :
    ∃ x y z, l = [x, y, z] := by
  rcases l with _ | ⟨x, _ | ⟨y, _ | ⟨z, _ | ⟨w, t⟩⟩⟩⟩ <;> simp_all

theorem namesStep_getD (a b c : String) (r : MonsterRes) (k : Int)
    (h1 : 1 ≤ k) (h2 : k ≤ 3) :
    (namesStep [a, b, c] r).getD (k - 1).toNat "" =
      if r.position = k then r.name else [a, b, c].getD (k - 1).toNat "" := by
  have hkidx : (k - 1).toNat < 3 := by omega
  by_cases hr : 1 ≤ r.position ∧ r.position ≤ 3
  · obtain ⟨hr1, hr3⟩ := hr
    have hidx : (r.position - 1).toNat < 3 := by omega
    have hcase : ((r.position - 1).toNat = (k - 1).toNat) ↔ r.position = k := by omega
    rw [namesStep, if_pos ⟨hr1, hr3⟩, getD_set3 a b c r.name _ _ hidx hkidx]
    by_cases hek : r.position = k
    · rw [if_pos hek, if_pos (hcase.mpr hek)]
    · rw [if_neg hek, if_neg (fun hc => hek (hcase.mp hc))]
  · have hek : r.position ≠ k := by omega
    rw [namesStep, if_neg hr, if_neg hek]

theorem namesStep_length (names : List String) (r : MonsterRes) :
    (namesStep names r).length = names.length := by
  unfold namesStep
  split
  · exact List.length_set _ _ _
  · rfl

theorem foldl_namesStep_getD (results : List MonsterRes) (init : List String)
    (hlen : init.length = 3) (k : Int) (h1 : 1 ≤ k) (h2 : k ≤ 3) :
    (results.foldl namesStep init).getD (k - 1).toNat "" =
      (lastPosName k results).getD (init.getD (k - 1).toNat "") := by
  induction results generalizing init with
  | nil => rfl
  | cons r rest ih =>
    rw [List.foldl_cons, lastPosName]
    obtain ⟨a, b, c, rfl⟩ := exists_three hlen
    have hlen' : (namesStep [a, b, c] r).length = 3 := namesStep_length _ _
    rw [ih (namesStep [a, b, c] r) hlen', namesStep_getD a b c r k h1 h2]
    cases hlast : lastPosName k rest
    · simp only [Option.getD_none]
      by_cases hek : r.position = k
      · rw [if_pos hek, if_pos hek, Option.getD_some]
      · rw [if_neg hek, if_neg hek, Option.getD_none]
    · simp only [Option.getD_some]

theorem recogNames_getD (results : List MonsterRes) (k : Int)
    (h1 : 1 ≤ k) (h2 : k ≤ 3) :
    (recogNames results).getD (k - 1).toNat "" =
      (lastPosName k results).getD "" := by
  rw [recogNames, foldl_namesStep_getD results ["", "", ""] rfl k h1 h2]
  have h0 : (["", "", ""] : List String).getD (k - 1).toNat "" = "" := by
    have h1' : (k - 1).toNat = 0 ∨ (k - 1).toNat = 1 ∨ (k - 1).toNat = 2 := by omega
    rcases h1' with h' | h' | h' <;> rw [h'] <;> rfl
  rw [h0]

theorem recogNames_eq (results : List MonsterRes) :
    recogNames results =
      [slotName results 1, slotName results 2, slotName results 3] := by
  obtain ⟨a, b, c, heq⟩ := exists_three (length_recogNames results)
  have g1 := recogNames_getD results 1 (by norm_num) (by norm_num)
  have g2 := recogNames_getD results 2 (by norm_num) (by norm_num)
  have g3 := recogNames_getD results 3 (by norm_num) (by norm_num)
  rw [heq] at g1 g2 g3
  norm_num at g1 g2 g3
  rw [heq, slotName, slotName, slotName, ← g1, ← g2, ← g3]
  rfl

theorem lastPosName_eq_none {k : Int} {results : List MonsterRes}
    (h : ∀ r ∈ results, r.position ≠ k) : lastPosName k results = none := by
  induction results with
  | nil => rfl
  | cons r rest ih =>
    rw [lastPosName, ih (fun x hx => h x (List.mem_cons_of_mem r hx)),
      if_neg (h r (List.mem_cons_self r rest))]

theorem slotTagged_eq (results : List MonsterRes) :
    slotTagged results =
      tagged3 (slotName results 1) (slotName results 2) (slotName results 3) := by
  rw [slotTagged, recogNames_eq]
  have hr : List.range 3 = [0, 1, 2] := by decide
  rw [hr]
  by_cases h1 : slotName results 1 = "" <;>
    by_cases h2 : slotName results 2 = "" <;>
      by_cases h3 : slotName results 3 = "" <;>
        simp [List.filterMap, tagged3, h1, h2, h3]

/-- Out-of-range results are discarded: dropping such a result from
anywhere in the backend array leaves the `names` array unchanged. -/
theorem recogNames_discard (l1 l2 : List MonsterRes) (r : MonsterRes)
    (hr : r.position < 1 ∨ 3 < r.position) :
    recogNames (l1 ++ r :: l2) = recogNames (l1 ++ l2) := by
  have hstep : ∀ names, namesStep names r = names := by
    intro names
    rw [namesStep, if_neg (by omega)]
  rw [recogNames, recogNames, List.foldl_append, List.foldl_append,
    List.foldl_cons, hstep]

theorem foldl_bestStep_mem {f : TemplateEntry → ℚ} {th : ℚ} {e : TemplateEntry}
    (l : List TemplateEntry) :
    ∀ init : Option TemplateEntry,
      l.foldl (bestStep f th) init = some e → init = some e ∨ e ∈ l := by
  induction l with
  | nil =>
    intro init hinit
    exact Or.inl hinit
  | cons x rest ih =>
    intro init hfold
    rw [List.foldl_cons] at hfold
    rcases ih (bestStep f th init x) hfold with hinit | hmem
    · rw [bestStep] at hinit
      by_cases hc : (decide (th ≤ f x) && beats f x init) = true
      · rw [if_pos hc] at hinit
        exact Or.inr (by rw [← Option.some_inj.mp hinit]; exact List.mem_cons_self x rest)
      · rw [if_neg hc] at hinit
        exact Or.inl hinit
    · exact Or.inr (List.mem_cons_of_mem x hmem)

theorem bestAbove_mem {l : List TemplateEntry} {f : TemplateEntry → ℚ}
    {th : ℚ} {e : TemplateEntry} (h : bestAbove l f th = some e) : e ∈ l := by
  rcases foldl_bestStep_mem l none h with hinit | hmem
  · exact absurd hinit (by simp)
  · exact hmem

theorem filter3_eq (s1 s2 s3 : String) :
    [s1, s2, s3].filter (fun n => n ≠ "") = (tagged3 s1 s2 s3).map Prod.snd := by
  by_cases h1 : s1 = "" <;> by_cases h2 : s2 = "" <;> by_cases h3 : s3 = "" <;>
    simp [tagged3, h1, h2, h3]

theorem tagged3_pairwise (s1 s2 s3 : String) :
    (tagged3 s1 s2 s3).Pairwise (fun p q => p.1 < q.1) := by
  by_cases h1 : s1 = "" <;> by_cases h2 : s2 = "" <;> by_cases h3 : s3 = "" <;>
    simp [tagged3, h1, h2, h3]

theorem tagged3_mem_fst {s1 s2 s3 : String} {p : Nat × String}
    (hp : p ∈ tagged3 s1 s2 s3) : p.1 = 1 ∨ p.1 = 2 ∨ p.1 = 3 := by
  by_cases h1 : s1 = "" <;> by_cases h2 : s2 = "" <;> by_cases h3 : s3 = "" <;>
    simp [tagged3, h1, h2, h3] at hp <;>
    rcases hp with hp | hp | hp | hp <;>
    simp_all

theorem tagged3_mem_nonempty {s1 s2 s3 : String} {p : Nat × String}
    (hp : p ∈ tagged3 s1 s2 s3) :
    (p.1 = 1 → s1 ≠ "") ∧ (p.1 = 2 → s2 ≠ "") ∧ (p.1 = 3 → s3 ≠ "") := by
  by_cases h1 : s1 = "" <;> by_cases h2 : s2 = "" <;> by_cases h3 : s3 = "" <;>
    simp [tagged3, h1, h2, h3] at hp <;>
    rcases hp with hp | hp | hp | hp <;>
    simp_all

theorem lePin_iff (pins : List (String × Nat)) (a b : ItemData) :
    lePin pins a b = true ↔
      ((isPinned pins b = true → isPinned pins a = true) ∧
       (isPinned pins a = true → isPinned pins b = true →
         pinVal pins b ≤ pinVal pins a)) := by
  by_cases ha : isPinned pins a = true <;> by_cases hb : isPinned pins b = true <;>
    simp [lePin, cmpPin, ha, hb] <;> try omega

theorem lePin_total (pins : List (String × Nat)) :
    ∀ a b, lePin pins a b = true ∨ lePin pins b a = true := by
  intro a b
  simp only [lePin, decide_eq_true_eq]
  by_cases ha : isPinned pins a = true <;> by_cases hb : isPinned pins b = true <;>
    simp [cmpPin, ha, hb] <;> try omega

theorem lePin_trans (pins : List (String × Nat)) :
    ∀ a b c, lePin pins a b = true → lePin pins b c = true →
      lePin pins a c = true := by
  intro a b c hab hbc
  rw [lePin_iff] at hab hbc ⊢
  obtain ⟨h1ab, h2ab⟩ := hab
  obtain ⟨h1bc, h2bc⟩ := hbc
  refine ⟨fun hc => h1ab (h1bc hc), fun ha hc => ?_⟩
  have hb := h1bc hc
  exact le_trans (h2bc hb hc) (h2ab ha hb)

theorem lePin_of_unpinned {pins : List (String × Nat)} {a b : ItemData}
    (ha : (!(isPinned pins a)) = true) (hb : (!(isPinned pins b)) = true) :
    lePin pins a b = true := by
  rw [Bool.not_eq_true'] at ha hb
  rw [lePin_iff]
  exact ⟨fun hc => absurd hc (by rw [hb]; exact Bool.false_ne_true),
         fun hc => absurd hc (by rw [ha]; exact Bool.false_ne_true)⟩

theorem filter_key_single {l : List ItemData} (hnodup : (l.map jsKey).Nodup)
    {x : ItemData} (hx : x ∈ l) :
    l.filter (fun z => jsKey z == jsKey x) = [x] := by
  induction l with
  | nil => exact absurd hx (List.not_mem_nil x)
  | cons a rest ih =>
    rw [List.map_cons, List.nodup_cons] at hnodup
    obtain ⟨hhead, htail⟩ := hnodup
    rcases List.mem_cons.mp hx with rfl | hx'
    · rw [List.filter_cons, if_pos (by simp)]
      have hrest : rest.filter (fun z => jsKey z == jsKey x) = [] := by
        rw [List.filter_eq_nil_iff]
        intro z hz hkz
        rw [beq_iff_eq] at hkz
        exact hhead (List.mem_map.mpr ⟨z, hz, hkz⟩)
      rw [hrest]
    · have hne : (jsKey a == jsKey x) = false := by
        rw [beq_eq_false_iff_ne]
        intro he
        exact hhead (List.mem_map.mpr ⟨x, hx', he.symm⟩)
      rw [List.filter_cons, hne]
      simp only [Bool.false_eq_true, if_false]
      exact ih htail hx'

/-! ## Claim theorems -/

/-- C1 counterexample: a card-recognition request arriving while
`isRecognizingCard` is set is dropped by a bare `return` (App.tsx 527):
the run performs no backend invocation and leaves every observable —
including `errorMessage` and `statusMsg` — exactly as it found it, so the
caller receives *no* distinguishable "already running" signal; the blocked
call is indistinguishable from never having been made.  The same holds for
`handleAutoRecognition` (App.tsx 1568). -/
theorem gate_rejection_is_silent_cex :
    handleRecognizeCard ⟨true, [], [], none, none⟩ (.ok none) (fun _ => .ok none) =
      ⟨⟨true, [], [], none, none⟩, 0⟩ ∧
    handleAutoRecognition ⟨true, [], []⟩ [] (.ok [⟨1, "A"⟩]) =
      ⟨⟨true, [], []⟩, 0⟩ := by
  constructor <;> rfl

/-- C1 (amended): a recognition request of either kind arriving while the
corresponding Running flag is set is rejected immediately — it is not
queued, performs no backend invocation (hence no capture), and changes no
state — but the rejection is a silent early return, not a distinguishable
"already running" signal. -/
theorem gate_rejects_while_running :
    (∀ (s : AutoState) (mn : List String) (b : Except String (List MonsterRes)),
        s.isRecognizing = true → handleAutoRecognition s mn b = ⟨s, 0⟩) ∧
    (∀ (s : CardState) (r : Except String (Option (List CardRes)))
        (g : CardRes → Except String (Option ItemData)),
        s.isRecognizingCard = true → handleRecognizeCard s r g = ⟨s, 0⟩) := by
  constructor
  · intro s mn b h
    rw [handleAutoRecognition, if_pos h]
  · intro s r g h
    rw [handleRecognizeCard, if_pos h]

/-- C1 witness: instantiation of `gate_rejects_while_running` at a blocked
card-recognition request with a non-trivial pending state. -/
theorem gate_rejects_while_running_witness :
    handleRecognizeCard ⟨true, [⟨"u1", none, "石斧"⟩], ["u1"], none, some "e"⟩
        (.error "capture failed") (fun _ => .ok none) =
      ⟨⟨true, [⟨"u1", none, "石斧"⟩], ["u1"], none, some "e"⟩, 0⟩ :=
  gate_rejects_while_running.2 _ _ _ rfl

/-- C2: every non-blocked invocation of either handler — whatever the
backend does: success, empty result, or a rejected promise — ends with the
corresponding Running flag reset to `false` (the `finally` blocks at
App.tsx 1623–1625 and 562–564), so the gate can never be left permanently
`Running`. -/
theorem gate_flag_always_reset :
    (∀ (s : AutoState) (mn : List String) (b : Except String (List MonsterRes)),
        s.isRecognizing = false →
        (handleAutoRecognition s mn b).state.isRecognizing = false) ∧
    (∀ (s : CardState) (r : Except String (Option (List CardRes)))
        (g : CardRes → Except String (Option ItemData)),
        s.isRecognizingCard = false →
        (handleRecognizeCard s r g).state.isRecognizingCard = false) := by
  constructor
  · intro s mn b h
    rw [handleAutoRecognition, if_neg (by rw [h]; exact Bool.false_ne_true)]
  · intro s r g h
    rw [handleRecognizeCard, if_neg (by rw [h]; exact Bool.false_ne_true)]

/-- C2 witness: a monster recognition whose backend call rejects still
ends with `isRecognizing = false`. -/
theorem gate_flag_always_reset_witness :
    (handleAutoRecognition ⟨false, ["X"], []⟩ [] (.error "Templates not loaded")
      ).state.isRecognizing = false :=
  gate_flag_always_reset.1 ⟨false, ["X"], []⟩ [] (.error "Templates not loaded") rfl

/-- C5 counterexample: when the backend returns `null` (no candidates),
the handler *does* produce an error state for the caller: it sets
`errorMessage` to a user-facing failure message (App.tsx 556–558),
contradicting "no error state is produced". -/
theorem card_empty_result_cex :
    (handleRecognizeCard ⟨false, [], [], none, none⟩ (.ok none)
        (fun _ => .ok none)).state.errorMessage =
      some "未能识别到鼠标下的卡牌。请确保鼠标指向卡牌中心。" := by
  rfl

/-- C5 (amended): a card recognition completing with no candidates
(backend `null` or `[]`) raises no exception and behaves as a completed
run — the gate returns to idle and the displayed card list is untouched —
but instead of a silent valid empty result the handler sets the
user-facing error message `"未能识别到鼠标下的卡牌。请确保鼠标指向卡牌中心。"`. -/
theorem card_empty_result_behaviour :
    ∀ (s : CardState) (g : CardRes → Except String (Option ItemData))
      (res : Option (List CardRes)),
      s.isRecognizingCard = false → (res = none ∨ res = some []) →
      (handleRecognizeCard s (.ok res) g).state.isRecognizingCard = false ∧
      (handleRecognizeCard s (.ok res) g).state.recognizedCards = s.recognizedCards ∧
      (handleRecognizeCard s (.ok res) g).state.statusMsg = s.statusMsg ∧
      (handleRecognizeCard s (.ok res) g).state.errorMessage =
        some "未能识别到鼠标下的卡牌。请确保鼠标指向卡牌中心。" ∧
      (handleRecognizeCard s (.ok res) g).backendCalls = 1 := by
  intro s g res h hres
  have hni : ¬ s.isRecognizingCard = true := by rw [h]; exact Bool.false_ne_true
  rcases hres with rfl | rfl <;>
    simp [handleRecognizeCard, hni]

/-- C5 witness: instantiation of `card_empty_result_behaviour` at an empty
backend result list. -/
theorem card_empty_result_behaviour_witness :
    (handleRecognizeCard ⟨false, [⟨"u1", none, "木剑"⟩], [], some "ok", none⟩
        (.ok (some [])) (fun _ => .ok none)).state.recognizedCards =
      [⟨"u1", none, "木剑"⟩] :=
  (card_empty_result_behaviour ⟨false, [⟨"u1", none, "木剑"⟩], [], some "ok", none⟩
    (fun _ => .ok none) (some []) rfl (Or.inr rfl)).2.1

/-- C3: for every backend result list, the monster output derived from the
3-slot `names` array contains at most 3 candidates; viewed slot-tagged
(`slotTagged`), every candidate carries a slot index in `{1,2,3}`, the
candidates appear in strictly increasing (left-to-right) slot order, the
displayed name list `validNames` is exactly those tagged candidates in
order, a slot for which no result was returned stays empty (its index
never occurs in the output), and three results in slots 1, 2, 3 with names
A, B, C yield exactly `[(1,A),(2,B),(3,C)]`. -/
theorem monster_slot_output :
    (∀ results : List MonsterRes, (validNames results).length ≤ 3) ∧
    (∀ results : List MonsterRes,
      validNames results = (slotTagged results).map Prod.snd) ∧
    (∀ results : List MonsterRes,
      (slotTagged results).Pairwise (fun p q => p.1 < q.1)) ∧
    (∀ (results : List MonsterRes) (p : Nat × String), p ∈ slotTagged results →
      1 ≤ p.1 ∧ p.1 ≤ 3) ∧
    (∀ (results : List MonsterRes) (k : Int), 1 ≤ k → k ≤ 3 →
      (∀ r ∈ results, r.position ≠ k) →
      ∀ p ∈ slotTagged results, (p.1 : Int) ≠ k) ∧
    (slotTagged [⟨1, "A"⟩, ⟨2, "B"⟩, ⟨3, "C"⟩] = [(1, "A"), (2, "B"), (3, "C")] ∧
     (handleAutoRecognition ⟨false, [], []⟩ []
        (.ok [⟨1, "A"⟩, ⟨2, "B"⟩, ⟨3, "C"⟩])).state.identifiedNames =
       ["A", "B", "C"]) := by
  refine ⟨?_, ?_, ?_, ?_, ?_, by constructor <;> rfl⟩
  · intro results
    have h := List.length_filter_le (fun n => decide (n ≠ "")) (recogNames results)
    rw [length_recogNames results] at h
    exact h
  · intro results
    rw [validNames, recogNames_eq, slotTagged_eq]
    exact filter3_eq _ _ _
  · intro results
    rw [slotTagged_eq]
    exact tagged3_pairwise _ _ _
  · intro results p hp
    rw [slotTagged_eq] at hp
    rcases tagged3_mem_fst hp with h | h | h <;> omega
  · intro results k hk1 hk3 hnone p hp hpk
    rw [slotTagged_eq] at hp
    have hslot : lastPosName k results = none := lastPosName_eq_none hnone
    have hmem := tagged3_mem_nonempty hp
    have hk : k = 1 ∨ k = 2 ∨ k = 3 := by omega
    rcases hk with rfl | rfl | rfl
    · exact hmem.1 (by omega) (by rw [slotName, hslot]; rfl)
    · exact hmem.2.1 (by omega) (by rw [slotName, hslot]; rfl)
    · exact hmem.2.2 (by omega) (by rw [slotName, hslot]; rfl)

/-- C3 witness: instantiation of the empty-slot clause of
`monster_slot_output`: when no result carries position 2, slot 2 is absent
from the tagged output. -/
theorem monster_slot_output_witness :
    ∀ p ∈ slotTagged [⟨1, "A"⟩, ⟨3, "C"⟩], (p.1 : Int) ≠ 2 :=
  monster_slot_output.2.2.2.2.1 [⟨1, "A"⟩, ⟨3, "C"⟩] 2 (by norm_num) (by norm_num)
    (by decide)

/-- C9: (i) a backend result whose `position` lies outside `1..3` is
silently discarded — removing it from the result array leaves the `names`
array unchanged, and in particular no write outside the 3 slots ever
occurs; (ii) the `names` array always keeps exactly its 3 slots; (iii) the
content of slot `k` is the name of the *last* result carrying position `k`
(later duplicates overwrite earlier ones), or empty if there is none. -/
theorem monster_position_safety :
    (∀ (l1 l2 : List MonsterRes) (r : MonsterRes),
      r.position < 1 ∨ 3 < r.position →
      recogNames (l1 ++ r :: l2) = recogNames (l1 ++ l2)) ∧
    (∀ results : List MonsterRes, (recogNames results).length = 3) ∧
    (∀ (results : List MonsterRes) (k : Int), 1 ≤ k → k ≤ 3 →
      (recogNames results).getD (k - 1).toNat "" =
        (lastPosName k results).getD "") :=
  ⟨recogNames_discard, length_recogNames, recogNames_getD⟩

/-- C9 witness: a result with position 0 is discarded, and of two results
both claiming slot 1 ("A" then "B") the later one wins. -/
theorem monster_position_safety_witness :
    (recogNames ([] ++ (⟨0, "X"⟩ : MonsterRes) :: [⟨1, "A"⟩]) =
      recogNames ([] ++ [⟨1, "A"⟩])) ∧
    ((recogNames [⟨1, "A"⟩, ⟨1, "B"⟩]).getD ((1 : Int) - 1).toNat "" =
      (lastPosName 1 [⟨1, "A"⟩, ⟨1, "B"⟩]).getD "") ∧
    (lastPosName 1 [⟨1, "A"⟩, ⟨1, "B"⟩]).getD "" = "B" :=
  ⟨monster_position_safety.1 [] [⟨1, "A"⟩] ⟨0, "X"⟩ (Or.inl (by norm_num)),
   monster_position_safety.2.2 [⟨1, "A"⟩, ⟨1, "B"⟩] 1 (by norm_num) (by norm_num),
   by rfl⟩

/-- C6 counterexample: the claim requires
`is_complete = true ↔ loaded = total` at every observed snapshot
*including before loading has started*; but the initial `templateLoading`
React state (App.tsx 150) has `loaded = 0 = total` with
`is_complete = false`, so the equivalence fails there. -/
theorem loading_init_cex :
    ¬((templateLoadingInit.is_complete = true) ↔
        templateLoadingInit.loaded = templateLoadingInit.total) := by
  decide

/-- C6 (amended): over any observation run — the initial frontend snapshot
followed by loader states sampled at nondecreasing instants —
`loaded ≤ total` holds at every snapshot; for every snapshot reported by
the loader (i.e. once loading has started) `is_complete` is true iff
`loaded = total`; and `is_complete` never transitions from observed-true
back to false.  Before loading has started the snapshot is
`{loaded 0, total 0, is_complete false}`, so the iff does not hold there. -/
theorem loading_progress_invariants :
    ∀ (n : Nat) (samples : List Nat),
      (∀ k ∈ samples, k ≤ n) → samples.Pairwise (· ≤ ·) →
      (∀ st ∈ observedStates n samples, st.loaded ≤ st.total) ∧
      (∀ k ∈ samples,
        ((loaderState n k).is_complete = true ↔
          (loaderState n k).loaded = (loaderState n k).total)) ∧
      (observedStates n samples).Pairwise
        (fun a b => a.is_complete = true → b.is_complete = true) := by
  intro n samples hle hmono
  refine ⟨?_, ?_, ?_⟩
  · intro st hst
    rcases List.mem_cons.mp hst with rfl | hst
    · exact Nat.le_refl 0
    · rcases List.mem_map.mp hst with ⟨k, hk, rfl⟩
      exact hle k hk
  · intro k hk
    simp [loaderState]
  · rw [observedStates, List.pairwise_cons]
    constructor
    · intro b hb hinit
      exact absurd hinit (by simp [templateLoadingInit])
    · rw [List.pairwise_map]
      refine hmono.imp_of_mem ?_
      intro a b ha hb hab hc
      have han : a = n := by
        have := of_decide_eq_true hc
        simpa [loaderState] using hc
      have hbn : b = n := Nat.le_antisymm (hle b hb) (by omega)
      simp [loaderState, hbn]

/-- C6 witness: a complete observation run of a 2-entry catalog sampled at
0, 1, 2 processed entries: completion, once observed, persists. -/
theorem loading_progress_invariants_witness :
    (observedStates 2 [0, 1, 2]).Pairwise
      (fun a b => a.is_complete = true → b.is_complete = true) :=
  (loading_progress_invariants 2 [0, 1, 2] (by decide) (by decide)).2.2

/-- C7 counterexample: the day filter does not universally exclude
mismatching availabilities — for the supplied day value `""` (before the
day tabs initialise) the monster tab defaults to `"Day 1"`
(App.tsx 1287–1290), so a monster whose availability (`"Day 1"`) differs
from the supplied day appears in the output. -/
theorem day_filter_cex :
    ("Day 1" ≠ "") ∧
    (⟨"快乐杰克南瓜", "Day 1"⟩ : MonsterData) ∈
      updateFilteredMonsters [⟨"快乐杰克南瓜", "Day 1"⟩] [] "" := by
  constructor
  · decide
  · decide

/-- C7 (amended): for every *non-empty* supplied day, only monsters whose
`available` string equals that day survive the monster-tab filter,
independently of the recognition-order sort; in general the filter keeps
exactly the monsters matching the effective day (the supplied day, or
`"Day 1"` when the supplied day is empty and the catalog non-empty).  On
the backend side (modelled from the spec), `recognize_entities(day)`
draws slot candidates only from `entries_for_day(day)`, so an entity whose
availability differs from `day` never appears, no matter how its template
scores. -/
theorem day_filter_excludes_mismatch :
    (∀ (allMonsters : List MonsterData) (names : List String) (day : String)
        (m : MonsterData), day ≠ "" →
        m ∈ updateFilteredMonsters allMonsters names day → m.available = day) ∧
    (∀ (allMonsters : List MonsterData) (names : List String) (day : String)
        (m : MonsterData),
        m ∈ updateFilteredMonsters allMonsters names day →
        m.available = (if day = "" ∧ allMonsters.length > 0 then "Day 1" else day)) ∧
    (∀ (entries : List TemplateEntry) (day : String)
        (score : TemplateEntry → Nat → ℚ) (th : ℚ)
        (e : TemplateEntry) (slot : Nat),
        (e, slot) ∈ recognizeEntitiesSlots entries day score th →
        e.availability = day) := by
  have hmain : ∀ (allMonsters : List MonsterData) (names : List String)
      (day : String) (m : MonsterData),
      m ∈ updateFilteredMonsters allMonsters names day →
      m.available = (if day = "" ∧ allMonsters.length > 0 then "Day 1" else day) := by
    intro allMonsters names day m hm
    rw [updateFilteredMonsters] at hm
    have hm' := mem_stableSort.mp hm
    have := List.mem_filter.mp hm'
    have hpred := of_decide_eq_true this.2
    exact hpred.2
  refine ⟨?_, hmain, ?_⟩
  · intro allMonsters names day m hday hm
    have h := hmain allMonsters names day m hm
    rwa [if_neg (fun hc => hday hc.1)] at h
  · intro entries day score th e slot hmem
    rw [recognizeEntitiesSlots] at hmem
    rcases List.mem_filterMap.mp hmem with ⟨s, _, hs⟩
    rcases Option.map_eq_some'.mp hs with ⟨e', he', heq⟩
    have hee : e' = e := congrArg Prod.fst heq
    have hmem' : e ∈ entriesForDay entries day := hee ▸ bestAbove_mem he'
    have := List.mem_filter.mp hmem'
    exact of_decide_eq_true this.2

/-- C7 witness: with catalog entries for Day 2 and Day 3, a monster shown
for the supplied day "Day 2" indeed carries availability "Day 2". -/
theorem day_filter_excludes_mismatch_witness :
    (⟨"M1", "Day 2"⟩ : MonsterData).available = "Day 2" :=
  day_filter_excludes_mismatch.1 [⟨"M1", "Day 2"⟩, ⟨"M2", "Day 3"⟩] [] "Day 2"
    ⟨"M1", "Day 2"⟩ (by decide) (by decide)

/-- C4 counterexample: the Primary/Secondary role is *not* a tagged
attribute attached to each candidate — the rendered badge is recomputed
from the array index (`const isTopMatch = idx === 0`, App.tsx 3298), so no
per-candidate role function can reproduce it: the same `ItemData` value
displayed at index 0 gets "MATCH" and at index 1 gets "MAYBE". -/
theorem role_not_tagged_cex :
    ¬ ∃ roleOf : ItemData → String,
        ∀ (items : List ItemData) (i : Nat) (h : i < items.length),
          displayedBadge items i = roleOf (items.get ⟨i, h⟩) := by
  rintro ⟨roleOf, h⟩
  have h0 := h [⟨"u", none, "卡"⟩, ⟨"u", none, "卡"⟩] 0 (by decide)
  have h1 := h [⟨"u", none, "卡"⟩, ⟨"u", none, "卡"⟩] 1 (by decide)
  rw [show ([⟨"u", none, "卡"⟩, ⟨"u", none, "卡"⟩] : List ItemData).get
        ⟨0, by decide⟩ = ⟨"u", none, "卡"⟩ from rfl] at h0
  rw [show ([⟨"u", none, "卡"⟩, ⟨"u", none, "卡"⟩] : List ItemData).get
        ⟨1, by decide⟩ = ⟨"u", none, "卡"⟩ from rfl] at h1
  rw [← h0] at h1
  exact absurd h1 (by decide)

/-- C4 (amended): the resolver (modelled from the spec, since the ranking
happens in the Rust backend) orders candidates by descending confidence
and assigns `Primary` to index 0 and `Secondary` to every later index;
the UI renders exactly that rank-to-label mapping ("MATCH" for index 0,
"MAYBE" otherwise) — but it derives the label from the array index at
render time rather than reading a role attribute stored on the candidate. -/
theorem card_rank_roles :
    (∀ cands : List MatchCandidate,
      ((resolveCandidates cands).map Prod.fst).Pairwise
        (fun a b => b.confidence ≤ a.confidence)) ∧
    (∀ (cands : List MatchCandidate) (i : Nat)
        (h : i < (resolveCandidates cands).length),
      ((resolveCandidates cands).get ⟨i, h⟩).2 =
        if i = 0 then Role.Primary else Role.Secondary) ∧
    (∀ (items : List ItemData) (i : Nat),
      displayedBadge items i = if i = 0 then "MATCH" else "MAYBE") ∧
    resolveCandidates [] = [] := by
  have hfst : ∀ cands : List MatchCandidate,
      (resolveCandidates cands).map Prod.fst =
        stableSort (fun a b => decide (b.confidence ≤ a.confidence)) cands := by
    intro cands
    rw [resolveCandidates]
    cases hs : stableSort (fun a b => decide (b.confidence ≤ a.confidence)) cands with
    | nil => rfl
    | cons c rest =>
      rw [List.map_cons, List.map_map]
      have hid : (Prod.fst ∘ fun x : MatchCandidate => (x, Role.Secondary)) =
          fun x => x := rfl
      rw [hid]
      rw [List.map_id']
  refine ⟨?_, ?_, ?_, rfl⟩
  · intro cands
    rw [hfst]
    have hp := @pairwise_stableSort MatchCandidate
      (fun a b : MatchCandidate => decide (b.confidence ≤ a.confidence))
      (fun a b => by
        rcases le_total b.confidence a.confidence with h | h
        · exact Or.inl (decide_eq_true h)
        · exact Or.inr (decide_eq_true h))
      (fun a b c hab hbc =>
        decide_eq_true (le_trans (of_decide_eq_true hbc) (of_decide_eq_true hab)))
      cands
    exact hp.imp (fun h => of_decide_eq_true h)
  · intro cands i h
    cases hs : stableSort (fun a b => decide (b.confidence ≤ a.confidence)) cands with
    | nil =>
      exfalso
      have hres : resolveCandidates cands = [] := by
        rw [resolveCandidates, hs]
      rw [hres] at h
      exact absurd h (by simp)
    | cons c rest =>
      have hres : resolveCandidates cands =
          (c, Role.Primary) :: rest.map (fun x => (x, Role.Secondary)) := by
        rw [resolveCandidates, hs]
      revert h
      rw [hres]
      intro h'
      match i, h' with
      | 0, _ => rfl
      | Nat.succ j, h' =>
        have hj : j < rest.length := by
          rw [List.length_cons, List.length_map] at h'
          omega
        have hstep : ((c, Role.Primary) ::
            rest.map (fun x => (x, Role.Secondary))).get ⟨j + 1, h'⟩ =
            (rest.map (fun x => (x, Role.Secondary))).get ⟨j, by simpa using hj⟩ := rfl
        rw [hstep]
        simp
  · intro items i
    rw [displayedBadge, isTopMatch]
    by_cases hi : i = 0
    · rw [hi]
      rfl
    · rw [if_neg hi, if_neg (by simpa using hi)]

/-- C8: for every pin map and item list, `getSortedItems` returns a list
in which (i) no unpinned item precedes a pinned one and pinned items
appear in descending pin-counter order; (ii) the surviving unpinned items
keep their original relative order; (iii) at most one item per key
(`instance_id` falling back to `uuid`) remains; (iv) the survivor for each
key is the *first* occurrence of that key after the stable pin sort; and
hence (v) whenever any item with a given key is pinned, the survivor for
that key is pinned — a pinned copy survives over an unpinned duplicate. -/
theorem getSortedItems_spec :
    ∀ (pins : List (String × Nat)) (items : List ItemData),
      ((getSortedItems pins items).Pairwise (fun a b =>
        (isPinned pins b = true → isPinned pins a = true) ∧
        (isPinned pins a = true → isPinned pins b = true →
          pinVal pins b ≤ pinVal pins a))) ∧
      List.Sublist
        ((getSortedItems pins items).filter (fun x => !(isPinned pins x)))
        (items.filter (fun x => !(isPinned pins x))) ∧
      ((getSortedItems pins items).map jsKey).Nodup ∧
      (∀ k, (getSortedItems pins items).filter (fun x => jsKey x == k) =
        ((stableSort (lePin pins) items).filter (fun x => jsKey x == k)).take 1) ∧
      (∀ x ∈ getSortedItems pins items, ∀ y ∈ items,
        jsKey y = jsKey x → isPinned pins y = true → isPinned pins x = true) := by
  intro pins items
  have hsub : List.Sublist (getSortedItems pins items)
      (stableSort (lePin pins) items) := dedupByKey_sublist _ _ _
  have hpair : (stableSort (lePin pins) items).Pairwise
      (fun a b => lePin pins a b = true) :=
    pairwise_stableSort (lePin_total pins) (lePin_trans pins) items
  have hdedup : ∀ k, (getSortedItems pins items).filter (fun x => jsKey x == k) =
      ((stableSort (lePin pins) items).filter (fun x => jsKey x == k)).take 1 :=
    fun k => filter_dedupByKey_fresh _ [] k (List.not_mem_nil k)
  have hnodup : ((getSortedItems pins items).map jsKey).Nodup :=
    nodup_keys_dedupByKey _ _ _
  refine ⟨?_, ?_, hnodup, hdedup, ?_⟩
  · exact (hpair.sublist hsub).imp (fun h => (lePin_iff pins _ _).mp h)
  · have hfil := List.Sublist.filter (fun x => !(isPinned pins x)) hsub
    have heq := @filter_stableSort ItemData (lePin pins)
      (fun x => !(isPinned pins x))
      (fun a b ha hb => lePin_of_unpinned ha hb) items
    rwa [heq] at hfil
  · intro x hx y hy hkey hypin
    by_contra hxpin
    have hxf : x ∈ (getSortedItems pins items).filter
        (fun z => jsKey z == jsKey x) :=
      List.mem_filter.mpr ⟨hx, by simp⟩
    rw [hdedup (jsKey x)] at hxf
    cases hsf : (stableSort (lePin pins) items).filter
        (fun z => jsKey z == jsKey x) with
    | nil =>
      rw [hsf] at hxf
      exact absurd hxf (by simp)
    | cons a t =>
      rw [hsf] at hxf
      have hxa : x = a := by simpa using hxf
      have hy' : y ∈ (stableSort (lePin pins) items).filter
          (fun z => jsKey z == jsKey x) :=
        List.mem_filter.mpr ⟨mem_stableSort.mpr hy, by simp [hkey]⟩
      rw [hsf] at hy'
      rcases List.mem_cons.mp hy' with rfl | hyt
      · exact hxpin (hxa ▸ hypin)
      · have hpairf : ((stableSort (lePin pins) items).filter
            (fun z => jsKey z == jsKey x)).Pairwise
            (fun a b => lePin pins a b = true) :=
          hpair.sublist (List.filter_sublist _)
        rw [hsf, List.pairwise_cons] at hpairf
        have hle : lePin pins a y = true := hpairf.1 y hyt
        have := ((lePin_iff pins a y).mp hle).1 hypin
        exact hxpin (hxa ▸ this)

/-- C8 witness: `pins` maps uuid `u1`, so item `p = ⟨u1, instance k, A⟩`
is pinned while its key-duplicate `u = ⟨u3, instance k, C⟩` is not; the
pinned copy survives deduplication and the survivor is pinned. -/
theorem getSortedItems_spec_witness :
    getSortedItems [("u1", 1)]
        [⟨"u3", some "k", "C"⟩, ⟨"u1", some "k", "A"⟩] =
      [⟨"u1", some "k", "A"⟩] ∧
    isPinned [("u1", 1)] ⟨"u1", some "k", "A"⟩ = true :=
  ⟨by decide,
   (getSortedItems_spec [("u1", 1)]
      [⟨"u3", some "k", "C"⟩, ⟨"u1", some "k", "A"⟩]).2.2.2.2
     ⟨"u1", some "k", "A"⟩ (by decide)
     ⟨"u1", some "k", "A"⟩ (by decide) rfl (by decide)⟩

/-- C4 witness: two candidates with confidences 9 and 3 resolve in
descending-confidence order, and the second resolved entry carries the
`Secondary` role. -/
theorem card_rank_roles_witness :
    ((resolveCandidates [⟨"A", 9⟩, ⟨"B", 3⟩]).map Prod.fst).Pairwise
      (fun a b => b.confidence ≤ a.confidence) ∧
    ((resolveCandidates [⟨"A", 9⟩, ⟨"B", 3⟩]).get
        ⟨1, by decide⟩).2 = Role.Secondary :=
  ⟨card_rank_roles.1 [⟨"A", 9⟩, ⟨"B", 3⟩],
   card_rank_roles.2.1 [⟨"A", 9⟩, ⟨"B", 3⟩] 1 (by decide)⟩

/-- C10: (i) with no stored value under the storage key, or a stored value
on which `JSON.parse` throws, `useDraggable` initialises `position` to the
supplied `initialPos` without throwing; (ii) mouse-move and mouse-down
events never write to `localStorage`; a mouse-up outside a drag writes
nothing either; and a mouse-up ending a drag performs exactly one write:
the final coordinates (`clientX/Y` minus the drag offset) under the
storage key. -/
theorem useDraggable_spec :
    (∀ (parse : String → Option Pos) (store : List (String × String))
        (k : String) (init : Pos),
      getItem store k = none →
      getSavedPosition parse store (some k) init = init) ∧
    (∀ (parse : String → Option Pos) (store : List (String × String))
        (k saved : String) (init : Pos),
      getItem store k = some saved → parse saved = none →
      getSavedPosition parse store (some k) init = init) ∧
    (∀ (sk : Option String) (s : DragState) (e : MouseEvt),
      (stepDrag sk s (.move e)).store = s.store ∧
      (stepDrag sk s (.down e)).store = s.store) ∧
    (∀ (sk : Option String) (s : DragState) (e : MouseEvt),
      s.isDragging = false → (stepDrag sk s (.up e)).store = s.store) ∧
    (∀ (k : String) (s : DragState) (e : MouseEvt),
      s.isDragging = true →
      (stepDrag (some k) s (.up e)).store =
        setItem s.store k
          (encodePos ⟨e.clientX - s.offset.x, e.clientY - s.offset.y⟩)) := by
  refine ⟨?_, ?_, ?_, ?_, ?_⟩
  · intro parse store k init hnone
    rw [getSavedPosition, hnone]
  · intro parse store k saved init hsome hparse
    rw [getSavedPosition, hsome]
    simp only []
    rw [hparse]
  · intro sk s e
    constructor
    · rw [stepDrag]
      split <;> rfl
    · rw [stepDrag]
      split <;> rfl
  · intro sk s e h
    rw [stepDrag, if_neg (by rw [h]; exact Bool.false_ne_true)]
  · intro k s e h
    rw [stepDrag, if_pos h]

/-- C10 witness: a corrupt stored value (`parse` throws) falls back to the
initial position, and finishing a drag at client (10, 20) with offset
(1, 2) writes exactly `\x7b"x":9,"y":18\x7d` under the key. -/
theorem useDraggable_spec_witness :
    getSavedPosition (fun _ => none) [("plugin-pos", "not json")]
        (some "plugin-pos") ⟨100, 100⟩ = ⟨100, 100⟩ ∧
    (stepDrag (some "plugin-pos")
        ⟨⟨5, 5⟩, true, ⟨1, 2⟩, []⟩ (.up ⟨10, 20, 0⟩)).store =
      [("plugin-pos", encodePos ⟨9, 18⟩)] :=
  ⟨useDraggable_spec.2.1 (fun _ => none) [("plugin-pos", "not json")]
      "plugin-pos" "not json" ⟨100, 100⟩ rfl rfl,
   useDraggable_spec.2.2.2.2 "plugin-pos" ⟨⟨5, 5⟩, true, ⟨1, 2⟩, []⟩
      ⟨10, 20, 0⟩ rfl⟩

end BazaarHelper
